import Mathlib

/-!
Verification of the core of check-page-speed: report construction
(report.go), string elision and table formatting (strutil.go and the
table formatter), detail-line capping (text.go), and the bounded
concurrency fetch-with-retry orchestrator (main.go), shallowly embedded
in Lean.  Go machine integers that can go negative (the `max` width
parameter, the `maxDetails` cap) are modelled as `Int`; rune counts as
`Nat`; Go strings as `String` or `List Char` (one element per code
point, matching `[]rune` and `utf8.RuneCountInString`); fallible code
as `Option`/`Except`, with `none` standing for a Go runtime panic where
noted; float64 scores as `Option ℚ` (`none` = the score is absent or
not a float64).
-/

namespace CheckPageSpeed

/-- From report.go: an audit within a Lighthouse report. -/
structure audit where
  Title : String
  Score : Int            -- [0, 100] or -1 if unset
  Value : String         -- optional
  Details : List (List String)
  deriving DecidableEq, Repr

/-- From report.go: a category within a Lighthouse report. -/
structure category where
  Title : String
  Abbrev : String
  Score : Int            -- [0, 100]
  Audits : List audit
  deriving DecidableEq, Repr

/-- From report.go: a Lighthouse report for a single URL. -/
structure report where
  URL : String
  Categories : List category
  deriving DecidableEq, Repr

/-- Go's `math.Round`: round to nearest integer, halves away from zero
(with float64 values modelled as rationals). -/
def mathRound (x : ℚ) : Int :=
  if 0 ≤ x then ⌊x + 1/2⌋ else ⌈x - 1/2⌉

/-- From report.go, `score100`: converts a float64 score in [0, 1] to an
int in [0, 100] via `int(math.Round(f * 100))` (the `int` conversion is
the identity on the integral value `math.Round` produces); returns -1
when the raw score is not a float64 (typically nil).  The raw
`interface{}` score is modelled as `Option ℚ`. -/
def score100 : Option ℚ → Int
  | none => -1
  | some f => mathRound (f * 100)

/-- From report.go, `categoryAbbrev`. -/
def categoryAbbrev (id : String) : String :=
  if id = "accessibility" then "A11Y"
  else if id = "best-practices" then "Best"
  else if id = "performance" then "Perf"
  else if id = "pwa" then "PWA"
  else if id = "seo" then "SEO"
  else id

/-- Raw audit data (`pso.LighthouseAuditResultV5`), restricted to the
fields report.go reads: Title, Score, Details.  The structured details
payload is modelled post-extraction (as the `[][]string` that
`getDetails` produces from the raw JSON); no claim under verification
depends on the JSON decoding of details. -/
structure RawAudit where
  title : String
  score : Option ℚ
  details : List (List String)
  deriving DecidableEq, Repr

/-- Raw category data (`pso.LighthouseCategoryV5`), restricted to the
fields report.go reads: Id, Title, Score, AuditRefs (an audit ref is
read only for its Id). -/
structure RawCategory where
  id : String
  title : String
  score : Option ℚ
  auditRefs : List String
  deriving DecidableEq, Repr

/-- Raw API response (`pso.PagespeedApiPagespeedResponseV5`), restricted
to the fields report.go reads.  The five category pointers are nilable
(`Option`); `audits` models the Go map `lhr.Audits`. -/
structure RawResponse where
  id : String
  performance : Option RawCategory
  accessibility : Option RawCategory
  bestPractices : Option RawCategory
  seo : Option RawCategory
  pwa : Option RawCategory
  audits : List (String × RawAudit)
  deriving DecidableEq, Repr

/-- Lookup in the raw audit map (`lhr.Audits[ar.Id]`). -/
def lookupAudit (m : List (String × RawAudit)) (k : String) : Option RawAudit :=
  (m.find? (fun p => p.1 == k)).map (fun p => p.2)

/-- From report.go, the inner loop of `readReport`: resolve each audit
ref of a category against the audit map; a missing audit is a hard error
for the whole report. -/
def buildAudits (m : List (String × RawAudit)) (catTitle : String) :
    List String → Except String (List audit)
  | [] => .ok []
  | r :: rs =>
    match lookupAudit m r with
    | none => .error ("category " ++ catTitle ++ " is missing audit " ++ r)
    | some a =>
      (buildAudits m catTitle rs).map
        (fun rest => { Title := a.title, Score := score100 a.score,
                       Value := "", Details := a.details } :: rest)

/-- From report.go, the outer loop of `readReport` over the five
canonical category slots: a nil category is skipped; a present one is
converted (title, abbrev, normalized score, resolved audits). -/
def buildCats (m : List (String × RawAudit)) :
    List (Option RawCategory) → Except String (List category)
  | [] => .ok []
  | none :: cs => buildCats m cs
  | some c :: cs => do
    let as ← buildAudits m c.title c.auditRefs
    let rest ← buildCats m cs
    .ok ({ Title := c.title, Abbrev := categoryAbbrev c.id,
           Score := score100 c.score, Audits := as } :: rest)

/-- The fixed category order used by `readReport` (the Chrome DevTools
order): Performance, Accessibility, BestPractices, Seo, Pwa. -/
def catSlots (res : RawResponse) : List (Option RawCategory) :=
  [res.performance, res.accessibility, res.bestPractices, res.seo, res.pwa]

/-- From report.go, `readReport`: build a `report` from a raw response,
failing the whole report if any present category references an audit id
absent from the audit map. -/
def readReport (res : RawResponse) : Except String report :=
  (buildCats res.audits (catSlots res)).map
    (fun cats => { URL := res.id, Categories := cats })

/-- The categories of `res` that are present (non-nil), in the fixed
iteration order. -/
def presentCats (res : RawResponse) : List RawCategory :=
  (catSlots res).filterMap id

/-- From strutil.go: the anchored match of the regular expression
`^([^/]+://[^/]+/)(.+)$` against a rune string, returning the
(group 1, group 2) submatches.  Derivation from RE2's leftmost-greedy
semantics: the first `[^/]+` can only end right before a `/`;
the following literal `://` therefore forces group 1's `[^/]+` to be
the maximal slash-free prefix M minus its last character, that last
character to be `:`, and the two characters after M to be `//`
(any shorter candidate for `[^/]+` would need a `/` in the middle of M;
the maximal candidate M itself is followed by `/` or end of string,
never `:`).  After `://`, the second `[^/]+` must be the maximal
slash-free run B there (shorter candidates leave a non-`/` where the
literal `/` is required), B must be non-empty and followed by `/`, and
`(.+)$` requires at least one remaining character and — because RE2's
`.` does not match a newline when the `s` flag is off, which it is
here — none of the remaining characters may be `\n` (the negated
classes `[^/]`, by contrast, do match `\n` in RE2, so the scheme and
authority parts may contain newlines).
`matchURLtail` handles the part after group 1's `[^/]+` (that is,
`://[^/]+/(.+)`), given the maximal slash-free prefix M and the
remainder of the input after M. -/
def matchURLtail (M rest0 : List Char) : Option (List Char × List Char) :=
  match rest0 with
  | '/' :: '/' :: rest2 =>
    let B := rest2.takeWhile (fun c => c != '/')
    if B = [] then none
    else
      match rest2.drop B.length with
      | '/' :: C =>
        if C = [] ∨ '\n' ∈ C then none
        else some (M ++ '/' :: '/' :: B ++ ['/'], C)
      | _ => none
  | _ => none

/-- The anchored match of `elideURLRegexp` (see `matchURLtail` for the
derivation): group 1 is forced to be the maximal slash-free prefix M
minus its trailing `:`, so M must have length at least 2 and end in
`:`, with the rest matched by `matchURLtail`. -/
def matchURL (cs : List Char) : Option (List Char × List Char) :=
  let M := cs.takeWhile (fun c => c != '/')
  if 2 ≤ M.length ∧ M.getLast? = some ':' then matchURLtail M (cs.drop M.length)
  else none

/-- From strutil.go: the final `return string(r[:max-1]) + "…"` of
`elide`.  When `max - 1 < 0` the Go slice expression `r[:max-1]` panics
(slice bounds out of range), modelled as `none`; the upper bound
`max - 1 ≤ len(r)` always holds there because this line is only reached
with `len(r) > max`. -/
def elideFallback (s : List Char) (mx : Int) : Option (List Char) :=
  if mx - 1 < 0 then none else some (s.take (mx - 1).toNat ++ ['…'])

/-- From strutil.go, `elide`: shorten a string to at most `mx` runes,
preferring to elide the middle of a URL's path.  The string is a rune
list (`[]rune(s)`); `mx` is a Go int.  In the URL branch the slice
bounds are always in range: `0 ≤ (mx-len(url))/2 < len(end)` since
`len(url) < mx < len(url) + len(end)`, and `rem ≤ len(end)` likewise,
so `List.take`/`List.drop` truncation is never exercised. -/
def elide (s : List Char) (mx : Int) : Option (List Char) :=
  if (s.length : Int) ≤ mx then some s
  else
    match matchURL s with
    | some (pre, rest) =>
      if (pre.length : Int) < mx then
        let u1 := pre ++ rest.take ((mx - pre.length).toNat / 2)
        let u2 := u1 ++ ['…']
        let rem := mx - u2.length
        if 0 < rem then some (u2 ++ rest.drop (rest.length - rem.toNat))
        else some u2
      else elideFallback s mx
    | none => elideFallback s mx

/-- The middle-elided form of a URL-shaped string that C7 describes:
the full prefix `pre` (`<scheme>://<authority>/`), then the leading
code points of `rest` that fit in half the remaining budget
(`(mx - len(pre)) / 2`, integer division), then one ellipsis code
point, then the trailing code points of `rest` filling the remaining
budget. -/
def urlElided (pre rest : List Char) (mx : Int) : List Char :=
  let half := (mx - pre.length).toNat / 2
  let rem := (mx - (pre.length + half + 1)).toNat
  pre ++ rest.take half ++ '…' :: rest.drop (rest.length - rem)

/-- From the table formatter, the width-collection inner loop: update
per-column maximum widths with one row's cells (`j >= len(widths)`
appends, otherwise the width is raised to the cell's rune count if
larger). -/
def updCols : List Nat → List String → List Nat
  | ws, [] => ws
  | [], v :: vs => v.length :: updCols [] vs
  | w :: ws, v :: vs => max w v.length :: updCols ws vs

/-- From the table formatter: maximum display width of each column over
all rows, starting from `make([]int, len(rows[0]))`. -/
def colWidths (rows : List (List String)) : List Nat :=
  rows.foldl updCols (List.replicate ((rows.headD []).length) 0)

/-- From the table formatter, one row's rendering (a line is modelled
as its rune list; `lines[i] += x` is concatenation): cells are emitted
in order; a cell in a column of maximum width 0 is skipped; otherwise
the cell is padded to the column width (pad before the value for a
right-aligned column, after it otherwise) and, when the cell is not the
final cell of its row (`j < len(row)-1`), followed by `spacing`
separator spaces (the right-pad and separator are dropped after the
final cell). -/
def renderRowGo (widths : List Nat) (spacing : Nat) (rightCols : List Nat) :
    Nat → List String → List Char
  | _, [] => []
  | j, v :: vs =>
    let w := widths.getD j 0
    if w = 0 then renderRowGo widths spacing rightCols (j + 1) vs
    else
      let pad := List.replicate (w - v.length) ' '
      let cell := if j ∈ rightCols then pad ++ v.data else v.data
      if vs = [] then cell
      else
        cell ++ (if j ∈ rightCols then [] else pad) ++ List.replicate spacing ' ' ++
          renderRowGo widths spacing rightCols (j + 1) vs

/-- From the table formatter, `formatTable` (the variant called from
text.go: ragged rows accepted, no line cap, no error return): format
rows as lines of aligned columns.  The `tableRightCol` option set is
modelled as a list of column indices, `tableSpacing` as `spacing`;
output lines are rune lists. -/
def formatTable (rows : List (List String)) (spacing : Nat)
    (rightCols : List Nat) : List (List Char) :=
  if rows = [] then []
  else rows.map (renderRowGo (colWidths rows) spacing rightCols 0)

/-- Written to the words of the table-formatting spec (C8), for
comparison with `renderRowGo`: render the non-omitted cells of a row
(cells paired with their column index, columns of maximum width 0
removed): every cell is padded to its column's maximum width —
left-padded for a right-aligned column, right-padded otherwise — with
exactly `spacing` spaces between adjacent non-omitted cells; nothing
follows the final non-omitted cell (no separator and no trailing
right-padding). -/
def renderCellsSpec (widths : List Nat) (spacing : Nat) (rightCols : List Nat) :
    List (Nat × String) → List Char
  | [] => []
  | [(j, v)] =>
    if j ∈ rightCols then List.replicate (widths.getD j 0 - v.length) ' ' ++ v.data
    else v.data
  | (j, v) :: c :: rest =>
    (if j ∈ rightCols then List.replicate (widths.getD j 0 - v.length) ' ' ++ v.data
     else v.data ++ List.replicate (widths.getD j 0 - v.length) ' ') ++
      List.replicate spacing ' ' ++ renderCellsSpec widths spacing rightCols (c :: rest)

/-- Written to the words of the table-formatting spec (C8): one row's
spec-side rendering — index the cells, drop those in all-empty columns,
and render the rest with `renderCellsSpec`. -/
def renderRowSpec (widths : List Nat) (spacing : Nat) (rightCols : List Nat)
    (row : List String) : List Char :=
  renderCellsSpec widths spacing rightCols
    (row.enum.filter (fun p => widths.getD p.1 0 != 0))

/-- From text.go, `writeReport`: cap the formatted detail lines at
`maxDetails` lines, replacing the last kept line with a `[k more]`
marker.  `maxDetails` is a Go int (the -details flag; -1 means
unlimited, 0 is filtered out by the caller). -/
def capDetails (maxDetails : Int) (details : List String) : List String :=
  if 0 < maxDetails ∧ maxDetails < (details.length : Int) then
    (details.set (maxDetails - 1).toNat
        ("[" ++ toString ((details.length : Int) - maxDetails + 1) ++ " more]")).take
      maxDetails.toNat
  else details

/-- From main.go: the orchestrator's per-URL job record. `rep = none`
models a nil report pointer; `err` models a non-nil error. -/
structure Job where
  url : String
  rep : Option report
  err : Bool
  attempts : Nat
  deriving DecidableEq, Repr

/-- The orchestrator's configuration: the input URLs, the worker count
(-workers), the retry budget (-retries), and the injected fetch
function.  `fetch u a` is the outcome of attempt number `a` (0-based,
`job.attempts` at the moment `getReport` is called) for URL `u`:
`some rep` on success, `none` on error.  Go's `getReport` always
returns (the network call either errors or yields a response), so the
fetch function is total. -/
structure OrchCfg where
  urls : List String
  workers : Nat
  retries : Nat
  fetch : String → Nat → Option report

/-- From main.go: the orchestrator's state.  `jobs` is the pending FIFO
channel, `inflight` the multiset of jobs currently held by workers,
`results` the FIFO channel of completed attempts, `done` the
`map[string]job` of terminal outcomes (insertion overwrites an existing
key, as for a Go map).  Both channels are buffered with capacity
`len(urls)`, which is never exceeded (at most one job circulates per
input URL), so channel sends never block and capacity is not
modelled. -/
structure OState where
  jobs : List Job
  inflight : List Job
  results : List Job
  done : List (String × Job)
  deriving DecidableEq, Repr

/-- The initial state: one job per input URL with `attempts = 0`, seeded
into the pending channel in input order (`for _, u := range urls`). -/
def initState (cfg : OrchCfg) : OState :=
  { jobs := cfg.urls.map (fun u => { url := u, rep := none, err := false, attempts := 0 }),
    inflight := [], results := [], done := [] }

/-- From main.go, the worker body: call `getReport`, record the outcome,
increment `attempts`. -/
def workJob (cfg : OrchCfg) (J : Job) : Job :=
  let o := cfg.fetch J.url J.attempts
  { url := J.url, rep := o, err := o.isNone, attempts := J.attempts + 1 }

/-- Go map insertion `m[k] = v`: overwrite the entry for `k` if present,
else add it. -/
def mapInsert (k : String) (v : Job) (m : List (String × Job)) : List (String × Job) :=
  if m.any (fun p => p.1 == k) then m.map (fun p => if p.1 == k then (k, v) else p)
  else m ++ [(k, v)]

/-- Go map lookup `m[k]` (without the zero-value default). -/
def lookupJob (m : List (String × Job)) (k : String) : Option Job :=
  (m.find? (fun p => p.1 == k)).map (fun p => p.2)

/-- All ways to pick one element out of a list (the element and the
remaining list): which in-flight fetch finishes next is scheduler
nondeterminism. -/
def pickOne : List Job → List (Job × List Job)
  | [] => []
  | j :: rest => (j, rest) :: (pickOne rest).map (fun pr => (pr.1, j :: pr.2))

/-- An idle worker dequeues the next pending job, possible only while
fewer than `workers` jobs are in flight (the pool has exactly `workers`
goroutines, each handling one job at a time). -/
def takeNexts (cfg : OrchCfg) (s : OState) : List OState :=
  if s.inflight.length < cfg.workers then
    match s.jobs with
    | [] => []
    | j :: rest => [{ s with jobs := rest, inflight := s.inflight ++ [j] }]
  else []

/-- Any in-flight fetch may complete next; the worker pushes the
processed job onto the results channel. -/
def finishNexts (cfg : OrchCfg) (s : OState) : List OState :=
  (pickOne s.inflight).map
    (fun pr => { s with inflight := pr.2, results := s.results ++ [workJob cfg pr.1] })

/-- From main.go, one iteration of the coordinating loop
`for len(done) < len(urls) { job := <-results; ... }`: while the loop
condition holds and a result is available, pop it; a failed attempt
within budget (`job.err != nil && job.attempts <= *retries`) is
re-enqueued on the pending channel, anything else is recorded in
`done` keyed by URL. -/
def coordNexts (cfg : OrchCfg) (s : OState) : List OState :=
  if cfg.urls.length ≤ s.done.length then []
  else
    match s.results with
    | [] => []
    | r :: rest =>
      if r.err = true ∧ r.attempts ≤ cfg.retries then
        [{ s with results := rest, jobs := s.jobs ++ [r] }]
      else
        [{ s with results := rest, done := mapInsert r.url r s.done }]

/-- All states reachable in one scheduler step. -/
def nexts (cfg : OrchCfg) (s : OState) : List OState :=
  takeNexts cfg s ++ finishNexts cfg s ++ coordNexts cfg s

/-- One step of the orchestrator under an arbitrary interleaving. -/
def OStep (cfg : OrchCfg) (s s' : OState) : Prop :=
  s' ∈ nexts cfg s

/-- States reachable from the initial state. -/
def Reachable (cfg : OrchCfg) (s : OState) : Prop :=
  Relation.ReflTransGen (OStep cfg) (initState cfg) s

/-- The coordinating loop's exit condition `len(done) >= len(urls)`. -/
def terminalState (cfg : OrchCfg) (s : OState) : Prop :=
  cfg.urls.length ≤ s.done.length

/-- From main.go, the final assembly loop: one result slot per input
URL in input order; a URL whose terminal job carries an error gets the
empty placeholder `&report{URL: url}`; otherwise the slot is the job's
report pointer (reading a missing key yields the zero `job`, whose
`err` is nil and whose `rep` is nil). -/
def assemble (cfg : OrchCfg) (s : OState) : List (Option report) :=
  cfg.urls.map (fun u =>
    let j := (lookupJob s.done u).getD { url := "", rep := none, err := false, attempts := 0 }
    if j.err then some { URL := u, Categories := [] } else j.rep)

/-- Invariant of a job waiting in the pending channel or held by a
worker: it is either fresh (`attempts = 0`) or was re-enqueued after a
failed attempt within the retry budget. -/
def pendingOK (cfg : OrchCfg) (J : Job) : Prop :=
  J.url ∈ cfg.urls ∧
    (J.attempts = 0 ∨
      (1 ≤ J.attempts ∧ J.attempts ≤ cfg.retries ∧
        cfg.fetch J.url (J.attempts - 1) = none))

/-- Invariant of a completed attempt sitting in the results channel:
its fields record the outcome of fetch attempt `attempts - 1`, and the
job was runnable (fresh or re-enqueued within budget) when the worker
picked it up. -/
def resultOK (cfg : OrchCfg) (J : Job) : Prop :=
  J.url ∈ cfg.urls ∧ 1 ≤ J.attempts ∧
    (J.err = true ↔ cfg.fetch J.url (J.attempts - 1) = none) ∧
    (J.err = false → J.rep = cfg.fetch J.url (J.attempts - 1)) ∧
    (J.attempts = 1 ∨
      (J.attempts - 1 ≤ cfg.retries ∧ cfg.fetch J.url (J.attempts - 2) = none))

/-- Invariant of a terminal entry of the done map: it is a completed
attempt keyed by its own URL that the coordinator refused to retry. -/
def doneOK (cfg : OrchCfg) (p : String × Job) : Prop :=
  p.2.url = p.1 ∧ resultOK cfg p.2 ∧ (p.2.err = true → cfg.retries < p.2.attempts)

/-- The orchestrator's global state invariant. -/
structure OInv (cfg : OrchCfg) (s : OState) : Prop where
  jobs_ok : ∀ J ∈ s.jobs, pendingOK cfg J
  inflight_ok : ∀ J ∈ s.inflight, pendingOK cfg J
  results_ok : ∀ J ∈ s.results, resultOK cfg J
  done_ok : ∀ p ∈ s.done, doneOK cfg p
  keys_nodup : (s.done.map Prod.fst).Nodup

/-- A fixed report value returned by the concrete fetch functions
below. -/
def repU : report :=
  { URL := "u", Categories := [] }

/-- Concrete configuration: one URL, one worker, no retries, a fetch
that always succeeds. -/
def cfgOne : OrchCfg :=
  { urls := ["u"], workers := 1, retries := 0, fetch := fun _ _ => some repU }

/-- States of the unique complete run of `cfgOne`. -/
def oneS1 : OState :=
  { jobs := [], inflight := [{ url := "u", rep := none, err := false, attempts := 0 }],
    results := [], done := [] }

def oneS2 : OState :=
  { jobs := [], inflight := [],
    results := [{ url := "u", rep := some repU, err := false, attempts := 1 }],
    done := [] }

def oneS3 : OState :=
  { jobs := [], inflight := [], results := [],
    done := [("u", { url := "u", rep := some repU, err := false, attempts := 1 })] }

/-- Concrete configuration: one URL, one worker, retry budget 2, a
fetch that fails on the first attempt and succeeds afterwards
(k = 1). -/
def cfgRetry : OrchCfg :=
  { urls := ["u"], workers := 1, retries := 2,
    fetch := fun _ a => if a < 1 then none else some repU }

/-- States of a complete run of `cfgRetry`: take, fail, re-enqueue,
take, succeed, record. -/
def retS1 : OState :=
  { jobs := [], inflight := [{ url := "u", rep := none, err := false, attempts := 0 }],
    results := [], done := [] }

def retS2 : OState :=
  { jobs := [], inflight := [],
    results := [{ url := "u", rep := none, err := true, attempts := 1 }], done := [] }

def retS3 : OState :=
  { jobs := [{ url := "u", rep := none, err := true, attempts := 1 }], inflight := [],
    results := [], done := [] }

def retS4 : OState :=
  { jobs := [], inflight := [{ url := "u", rep := none, err := true, attempts := 1 }],
    results := [], done := [] }

def retS5 : OState :=
  { jobs := [], inflight := [],
    results := [{ url := "u", rep := some repU, err := false, attempts := 2 }],
    done := [] }

def retS6 : OState :=
  { jobs := [], inflight := [], results := [],
    done := [("u", { url := "u", rep := some repU, err := false, attempts := 2 })] }

/-- The terminal job of the `cfgRetry` run. -/
def jRet : Job :=
  { url := "u", rep := some repU, err := false, attempts := 2 }

/-- Concrete configuration with zero workers and a non-empty URL list
(C3). -/
def cfgZeroW : OrchCfg :=
  { urls := ["https://example.org/"], workers := 0, retries := 2,
    fetch := fun u _ => some { URL := u, Categories := [] } }

/-- Concrete configuration with a duplicated URL (C10). -/
def cfgDup : OrchCfg :=
  { urls := ["u", "u"], workers := 1, retries := 0, fetch := fun _ _ => some repU }

/-! Theorems. -/

/-- C4: `score100` maps a fractional raw score in [0,1] to an integer
in [0,100] by round-half-away-from-zero (on [0,1] scores, away from
zero means upward: when the fractional part of `q * 100` is exactly
1/2 the result is `⌊q * 100⌋ + 1`, and in every case the result is an
integer within 1/2 of `q * 100`); any non-numeric or absent raw score
maps to the sentinel -1 (distinct from 0); the raw score 0.995 maps to
100 and a null score maps to -1.  (With float64 arithmetic the product
`0.995 * 100` also rounds to exactly 99.5, so the rational model agrees
with the Go code on this input.) -/
theorem score100_half_away_from_zero (q : ℚ) (h0 : 0 ≤ q) (h1 : q ≤ 1) :
    0 ≤ score100 (some q) ∧ score100 (some q) ≤ 100 ∧
    |q * 100 - (score100 (some q) : ℚ)| ≤ 1 / 2 ∧
    (q * 100 - ⌊q * 100⌋ = 1 / 2 → score100 (some q) = ⌊q * 100⌋ + 1) ∧
    score100 none = -1 ∧ score100 (some (995 / 1000 : ℚ)) = 100 := by
  have hx0 : (0 : ℚ) ≤ q * 100 := by positivity
  have hs : score100 (some q) = ⌊q * 100 + 1 / 2⌋ := by
    simp [score100, mathRound, hx0]
  refine ⟨?_, ?_, ?_, ?_, rfl, ?_⟩
  · rw [hs]
    exact Int.le_floor.mpr (by push_cast; linarith)
  · rw [hs]
    have h101 : ⌊q * 100 + 1 / 2⌋ < 101 := Int.floor_lt.mpr (by push_cast; linarith)
    omega
  · rw [hs, abs_sub_le_iff]
    have hl := Int.floor_le (q * 100 + 1 / 2)
    have hu := Int.lt_floor_add_one (q * 100 + 1 / 2)
    constructor <;> [linarith; linarith]
  · intro ht
    rw [hs]
    have hcast : q * 100 + 1 / 2 = ((⌊q * 100⌋ + 1 : Int) : ℚ) := by push_cast; linarith
    rw [hcast, Int.floor_intCast]
  · show mathRound (995 / 1000 * 100) = 100
    unfold mathRound
    rw [if_pos (by norm_num)]
    rw [show (995 / 1000 : ℚ) * 100 + 1 / 2 = ((100 : Int) : ℚ) by norm_num]
    exact Int.floor_intCast 100

/-- Witness for C4 at the concrete tie score q = 0.995. -/
theorem score100_half_away_from_zero_witness :
    (0 : ℚ) ≤ 995 / 1000 ∧ (995 / 1000 : ℚ) ≤ 1 ∧
    (0 ≤ score100 (some (995 / 1000 : ℚ)) ∧
     score100 (some (995 / 1000 : ℚ)) ≤ 100 ∧
     |(995 / 1000 : ℚ) * 100 - (score100 (some (995 / 1000 : ℚ)) : ℚ)| ≤ 1 / 2 ∧
     ((995 / 1000 : ℚ) * 100 - ⌊(995 / 1000 : ℚ) * 100⌋ = 1 / 2 →
       score100 (some (995 / 1000 : ℚ)) = ⌊(995 / 1000 : ℚ) * 100⌋ + 1) ∧
     score100 none = -1 ∧ score100 (some (995 / 1000 : ℚ)) = 100) :=
  ⟨by norm_num, by norm_num,
    score100_half_away_from_zero (995 / 1000) (by norm_num) (by norm_num)⟩

/-- C9: with a positive line cap in effect, a detail table longer than
the cap has its line at 1-based position `maxLines` replaced by the
marker `[k more]` with `k = total - maxLines + 1` and everything after
that position dropped (so exactly `maxLines` lines remain); a table
with at most `maxLines` lines is emitted unchanged. -/
theorem capDetails_caps (maxLines : Int) (details : List String)
    (hpos : 0 < maxLines) :
    (maxLines < (details.length : Int) →
      capDetails maxLines details =
        details.take (maxLines.toNat - 1) ++
          ["[" ++ toString ((details.length : Int) - maxLines + 1) ++ " more]"] ∧
      (capDetails maxLines details).length = maxLines.toNat) ∧
    ((details.length : Int) ≤ maxLines → capDetails maxLines details = details) := by
  constructor
  · intro hlt
    have heq : capDetails maxLines details =
        details.take (maxLines.toNat - 1) ++
          ["[" ++ toString ((details.length : Int) - maxLines + 1) ++ " more]"] := by
      unfold capDetails
      rw [if_pos ⟨hpos, hlt⟩]
      have hm1 : (maxLines - 1).toNat = maxLines.toNat - 1 := by omega
      have hlen : maxLines.toNat - 1 < details.length := by omega
      rw [hm1, List.set_eq_take_cons_drop _ hlen]
      set p := details.take (maxLines.toNat - 1) with hp
      have hlt' : p.length = maxLines.toNat - 1 := by
        rw [hp]; simp [List.length_take]; omega
      rw [show maxLines.toNat = p.length + 1 by omega]
      rw [List.take_append]
      simp
    refine ⟨heq, ?_⟩
    rw [heq]
    simp [List.length_take]
    omega
  · intro hle
    unfold capDetails
    rw [if_neg (by omega)]

/-- Witness for C9: a three-line table capped at two lines. -/
theorem capDetails_caps_witness :
    capDetails 2 ["a", "b", "c"] = ["a", "[2 more]"] ∧
    (capDetails 2 ["a", "b", "c"]).length = 2 := by
  have h := (capDetails_caps 2 ["a", "b", "c"] (by norm_num)).1 (by norm_num)
  exact ⟨h.1.trans (by decide), h.2⟩

theorem buildAudits_ok_iff (m : List (String × RawAudit)) (t : String)
    (rs : List String) :
    (∃ as, buildAudits m t rs = .ok as) ↔
      ∀ r ∈ rs, ∃ a, lookupAudit m r = some a := by
  induction rs with
  | nil => simp [buildAudits]
  | cons r rs ih =>
    simp only [buildAudits]
    cases hl : lookupAudit m r with
    | none => simp [hl, List.forall_mem_cons]
    | some a =>
      cases hb : buildAudits m t rs with
      | error e =>
        rw [hb] at ih
        simp [hl, hb, Except.map, List.forall_mem_cons] at ih ⊢
        tauto
      | ok as =>
        rw [hb] at ih
        simp [hl, hb, Except.map, List.forall_mem_cons] at ih ⊢
        tauto

theorem buildCats_ok_iff (m : List (String × RawAudit))
    (cs : List (Option RawCategory)) :
    (∃ l, buildCats m cs = .ok l) ↔
      ∀ c ∈ cs.filterMap id, ∀ r ∈ c.auditRefs, ∃ a, lookupAudit m r = some a := by
  induction cs with
  | nil => simp [buildCats]
  | cons oc cs ih =>
    cases oc with
    | none => simpa [buildCats] using ih
    | some c =>
      have hsplit : (∃ l, buildCats m (some c :: cs) = .ok l) ↔
          ((∃ as, buildAudits m c.title c.auditRefs = .ok as) ∧
            (∃ rest, buildCats m cs = .ok rest)) := by
        cases ha : buildAudits m c.title c.auditRefs <;>
          cases hb : buildCats m cs <;>
            simp [buildCats, ha, hb, Bind.bind, Except.bind]
      rw [hsplit, buildAudits_ok_iff, ih]
      simp [List.forall_mem_cons]

/-- C5: `readReport` fails the whole report (no partial `report` value
is returned) whenever some present category holds an audit reference
whose id is absent from the raw audit map, and succeeds whenever every
reference of every present category resolves: success is equivalent to
full resolution. -/
theorem readReport_resolution (res : RawResponse) :
    (∃ rep, readReport res = .ok rep) ↔
      ∀ c ∈ presentCats res, ∀ r ∈ c.auditRefs,
        ∃ a, lookupAudit res.audits r = some a := by
  have hmap : (∃ rep, readReport res = .ok rep) ↔
      (∃ l, buildCats res.audits (catSlots res) = .ok l) := by
    unfold readReport
    cases hb : buildCats res.audits (catSlots res) <;> simp [hb, Except.map]
  rw [hmap, buildCats_ok_iff]
  rfl

theorem takeWhile_append_stop (p : Char → Bool) (B : List Char) (d : Char)
    (t : List Char) (hB : ∀ b ∈ B, p b = true) (hd : p d = false) :
    (B ++ d :: t).takeWhile p = B := by
  induction B with
  | nil => simp [List.takeWhile_cons, hd]
  | cons b bs ih =>
    have hb : p b = true := hB b (by simp)
    simp only [List.cons_append, List.takeWhile_cons, hb, if_pos]
    rw [ih (fun x hx => hB x (by simp [hx]))]

theorem matchURL_decomp (A B C : List Char) (hA : A ≠ []) (hB : B ≠ [])
    (hC : C ≠ []) (hAs : '/' ∉ A) (hBs : '/' ∉ B) (hCn : '\n' ∉ C) :
    matchURL (A ++ ':' :: '/' :: '/' :: (B ++ '/' :: C)) =
      some (A ++ ':' :: '/' :: '/' :: (B ++ ['/']), C) := by
  have hsplit : A ++ ':' :: '/' :: '/' :: (B ++ '/' :: C) =
      (A ++ [':']) ++ '/' :: '/' :: (B ++ '/' :: C) := by simp
  have hM : (A ++ ':' :: '/' :: '/' :: (B ++ '/' :: C)).takeWhile (fun c => c != '/') =
      A ++ [':'] := by
    rw [hsplit]
    refine takeWhile_append_stop _ (A ++ [':']) '/' _ ?_ (by decide)
    intro x hx
    rcases List.mem_append.mp hx with hxa | hxc
    · exact bne_iff_ne.mpr (fun hcon => hAs (hcon ▸ hxa))
    · simp at hxc
      subst hxc
      decide
  have hdrop : (A ++ ':' :: '/' :: '/' :: (B ++ '/' :: C)).drop (A ++ [':']).length =
      '/' :: '/' :: (B ++ '/' :: C) := by
    rw [hsplit]
    exact List.drop_left _ _
  have hBtw : (B ++ '/' :: C).takeWhile (fun c => c != '/') = B :=
    takeWhile_append_stop _ B '/' C
      (fun x hx => bne_iff_ne.mpr (fun hcon => hBs (hcon ▸ hx))) (by decide)
  have hBdrop : (B ++ '/' :: C).drop B.length = '/' :: C := List.drop_left' rfl
  have hlen : 2 ≤ (A ++ [':']).length := by
    have := List.length_pos.mpr hA
    simp [List.length_append]
    omega
  simp only [matchURL, hM, hdrop]
  rw [if_pos ⟨hlen, List.getLast?_concat A⟩]
  simp only [matchURLtail, hBtw, hBdrop]
  rw [if_neg hB]
  rw [if_neg (not_or.mpr ⟨hC, hCn⟩)]
  simp

theorem matchURL_pre_length (cs : List Char) (pr : List Char × List Char)
    (h : matchURL cs = some pr) : 2 ≤ pr.1.length := by
  simp only [matchURL] at h
  split at h
  case isTrue hg =>
    unfold matchURLtail at h
    split at h
    case h_1 rest2 heq =>
      simp only at h
      split at h
      case isTrue => exact absurd h (by simp)
      case isFalse hBne =>
        split at h
        case h_1 C heq2 =>
          split at h
          case isTrue => exact absurd h (by simp)
          case isFalse hCne =>
            have hpr := Option.some.inj h
            rw [← hpr]
            simp only [List.length_append, List.length_cons]
            omega
        case h_2 => exact absurd h (by simp)
    case h_2 => exact absurd h (by simp)
  case isFalse => exact absurd h (by simp)

/-- C6 (amended): `elide` degrades gracefully at `max = 1` — for a
string longer than one code point the result is the single ellipsis
character — but for `max ≤ 0` the call does not return a minimal
result: whenever the string is non-empty (or `max < 0`), the slice
expression `r[:max-1]` has a negative bound and the call panics
(modelled as `none`). -/
theorem elide_degrades (s : List Char) (mx : Int) :
    (mx = 1 → 1 < s.length → elide s mx = some ['…']) ∧
    ((mx ≤ 0 ∧ s ≠ []) ∨ mx < 0 → elide s mx = none) := by
  constructor
  · intro h1 hlen
    subst h1
    have hgt : ¬ ((s.length : Int) ≤ 1) := by omega
    unfold elide
    rw [if_neg hgt]
    cases hm : matchURL s with
    | none => simp [elideFallback]
    | some pr =>
      obtain ⟨pre, rest⟩ := pr
      have h2 := matchURL_pre_length s _ hm
      simp only at h2
      dsimp only
      rw [if_neg (by omega : ¬ ((pre.length : Int) < 1))]
      simp [elideFallback]
  · intro hcase
    have hgt : ¬ ((s.length : Int) ≤ mx) := by
      rcases hcase with ⟨hm0, hne⟩ | hneg
      · have := List.length_pos.mpr hne
        omega
      · rcases List.eq_nil_or_concat s with hnil | ⟨t, x, hx⟩
        · subst hnil; simpa using hneg
        · have : 0 < s.length := by subst hx; simp
          omega
    have hfb : elideFallback s mx = none := by
      unfold elideFallback
      rw [if_pos (by omega)]
    unfold elide
    rw [if_neg hgt]
    cases hm : matchURL s with
    | none => exact hfb
    | some pr =>
      obtain ⟨pre, rest⟩ := pr
      have h2 := matchURL_pre_length s _ hm
      simp only at h2
      dsimp only
      rw [if_neg (by omega : ¬ ((pre.length : Int) < mx))]
      exact hfb

/-- Witness for C6 (amended), at the spec's own example
`elide("hello there", 1) = "…"` and at a faulting input. -/
theorem elide_degrades_witness :
    elide ['h', 'e', 'l', 'l', 'o', ' ', 't', 'h', 'e', 'r', 'e'] 1 = some ['…'] ∧
    elide ['a'] (-1) = none :=
  ⟨(elide_degrades ['h', 'e', 'l', 'l', 'o', ' ', 't', 'h', 'e', 'r', 'e'] 1).1
      rfl (by decide),
    (elide_degrades ['a'] (-1)).2 (Or.inr (by decide))⟩

/-- Counterexample to C6 as stated: the claim asserts that for
`max ≤ 0` the call does not fault, but `elide("ab", 0)` reaches
`string(r[:max-1]) + "…"` with the negative slice bound -1 and panics
(the embedding returns `none` exactly on that panic; no caller in the
repository passes `max ≤ 0`, so the panic is unreachable in the
program, but the claim is about `elide` itself). -/
theorem elide_zero_panics : elide ['a', 'b'] 0 = none := by decide

/-- C7 (amended): a string longer than `max` that matches the shape
`<scheme>://<authority>/<rest>` (written as the unique decomposition
`A ++ "://" ++ B ++ "/" ++ C` with `A`, `B` non-empty and slash-free
and `C` non-empty and newline-free — RE2's `.` does not match `\n`,
so `(.+)$` requires `<rest>` to contain no newline — which is exactly
when `elideURLRegexp` matches, by `matchURL_decomp`) and whose prefix
`A ++ "://" ++ B ++ "/"` has fewer
than `max` code points elides the middle of the remainder: the full
prefix, the leading `⌊(max - len(prefix)) / 2⌋` code points of the
remainder, one ellipsis code point, then trailing code points of the
remainder filling the rest of the budget (`urlElided`); a long string
not of that shape, or whose prefix is too long, is truncated to its
first `max - 1` code points plus one ellipsis — provided `max ≥ 1`
(for `max ≤ 0` the fallback instead panics, see C6). -/
theorem elide_url_middle (s : List Char) (mx : Int) (hlong : mx < s.length) :
    (∀ A B C : List Char,
      s = A ++ ':' :: '/' :: '/' :: (B ++ '/' :: C) →
      A ≠ [] → B ≠ [] → C ≠ [] → '/' ∉ A → '/' ∉ B → '\n' ∉ C →
      (((A ++ ':' :: '/' :: '/' :: (B ++ ['/'])).length : Int) < mx →
        elide s mx = some (urlElided (A ++ ':' :: '/' :: '/' :: (B ++ ['/'])) C mx))) ∧
    (1 ≤ mx →
      (matchURL s = none ∨ ∃ pr, matchURL s = some pr ∧ mx ≤ (pr.1.length : Int)) →
      elide s mx = some (s.take (mx - 1).toNat ++ ['…'])) := by
  constructor
  · intro A B C hs hA hB hC hAs hBs hCn hpre
    have hm := matchURL_decomp A B C hA hB hC hAs hBs hCn
    rw [← hs] at hm
    have hslen : s.length = (A ++ ':' :: '/' :: '/' :: (B ++ ['/'])).length + C.length := by
      subst hs
      simp
      omega
    set pre := A ++ ':' :: '/' :: '/' :: (B ++ ['/']) with hpredef
    have hd1 : 1 ≤ (mx - (pre.length : Int)).toNat := by omega
    have hdC : (mx - (pre.length : Int)).toNat ≤ C.length := by omega
    unfold elide
    rw [if_neg (by omega : ¬ ((s.length : Int) ≤ mx))]
    rw [hm]
    dsimp only
    rw [if_pos hpre]
    set h2n := (mx - (pre.length : Int)).toNat / 2 with hh2
    have htake : (C.take h2n).length = h2n := by
      simp only [List.length_take]
      omega
    have hlen2 : ((((pre ++ C.take h2n) ++ ['…']).length : Nat) : Int) =
        (pre.length : Int) + h2n + 1 := by
      simp only [List.length_append, List.length_cons, List.length_nil, htake]
      push_cast
      ring
    rw [hlen2]
    unfold urlElided
    rw [← hh2]
    by_cases hrem : 0 < mx - ((pre.length : Int) + h2n + 1)
    · rw [if_pos hrem]
      simp [List.append_assoc]
    · rw [if_neg hrem]
      have hz : (mx - ((pre.length : Int) + h2n + 1)).toNat = 0 := by omega
      simp [hz, List.append_assoc]
  · intro hmx hcase
    unfold elide
    rw [if_neg (by omega : ¬ ((s.length : Int) ≤ mx))]
    rcases hcase with hnone | ⟨pr, hm, hple⟩
    · rw [hnone]
      dsimp only
      unfold elideFallback
      rw [if_neg (by omega)]
    · rw [hm]
      obtain ⟨pre, rest⟩ := pr
      dsimp only
      simp only at hple
      rw [if_neg (by omega : ¬ ((pre.length : Int) < mx))]
      unfold elideFallback
      rw [if_neg (by omega)]

/-- Witness for C7 (amended) at the spec's example:
`elide("https://example.org/dir/file.html", 25)` keeps the prefix
`https://example.org/`, two leading and two trailing code points of
`dir/file.html` around the ellipsis. -/
theorem elide_url_middle_witness :
    elide "https://example.org/dir/file.html".data 25 =
      some "https://example.org/di…ml".data := by
  have h := (elide_url_middle "https://example.org/dir/file.html".data 25
      (by decide)).1 "https".data "example.org".data "dir/file.html".data
      (by decide) (by decide) (by decide) (by decide) (by decide) (by decide)
      (by decide) (by decide)
  exact h.trans (by decide)

/-- Counterexample to C7 as stated: for `max = 0` the non-URL-shaped
string "abc" has more than `max` code points, so the claim's fallback
sentence promises a truncation result ("first max-1 code points plus
one ellipsis"); the code instead panics on the negative slice bound
(`none` in the embedding), so no such result is returned. -/
theorem elide_fallback_zero_panics :
    matchURL ['a', 'b', 'c'] = none ∧ elide ['a', 'b', 'c'] 0 = none := by decide

theorem renderRowGo_eq_spec (widths : List Nat) (spacing : Nat)
    (rightCols : List Nat) (row : List String) :
    ∀ j : Nat, (row ≠ [] → widths.getD (j + row.length - 1) 0 ≠ 0) →
      renderRowGo widths spacing rightCols j row =
        renderCellsSpec widths spacing rightCols
          ((row.enumFrom j).filter (fun p => widths.getD p.1 0 != 0)) := by
  induction row with
  | nil => intro j _; simp [renderRowGo, renderCellsSpec]
  | cons v vs ih =>
    intro j hlast
    by_cases hw : widths.getD j 0 = 0
    · have hvs : vs ≠ [] := by
        rintro rfl
        exact hlast (by simp) hw
      simp only [renderRowGo]
      rw [if_pos hw, List.enumFrom_cons, List.filter_cons,
        if_neg (by
          simp only [bne_iff_ne]
          exact fun hcon => hcon hw)]
      refine ih (j + 1) ?_
      intro _
      have h := hlast (by simp)
      rwa [show j + (v :: vs).length - 1 = j + 1 + vs.length - 1 from by
        simp only [List.length_cons]
        omega] at h
    · by_cases hvs : vs = []
      · subst hvs
        simp only [renderRowGo]
        rw [if_neg hw]
        simp only [List.enumFrom_cons, List.enumFrom_nil, List.filter_cons,
          List.filter_nil]
        rw [if_pos (bne_iff_ne.mpr hw)]
        simp [renderCellsSpec]
      · have hlast' : widths.getD (j + 1 + vs.length - 1) 0 ≠ 0 := by
          have h := hlast (by simp)
          rwa [show j + (v :: vs).length - 1 = j + 1 + vs.length - 1 from by
            simp only [List.length_cons]
            omega] at h
        have hvlen : vs.length - 1 < vs.length := by
          have := List.length_pos.mpr hvs
          omega
        have hflen : vs.length - 1 < (vs.enumFrom (j + 1)).length := by
          simpa using hvlen
        have hrest_ne :
            (vs.enumFrom (j + 1)).filter (fun p => widths.getD p.1 0 != 0) ≠ [] := by
          intro hcontra
          have hmem : (vs.enumFrom (j + 1))[vs.length - 1] ∈
              (vs.enumFrom (j + 1)).filter (fun p => widths.getD p.1 0 != 0) := by
            refine List.mem_filter.mpr ⟨List.getElem_mem hflen, ?_⟩
            rw [List.getElem_enumFrom]
            refine bne_iff_ne.mpr ?_
            rwa [show j + 1 + (vs.length - 1) = j + 1 + vs.length - 1 from by
              omega]
          rw [hcontra] at hmem
          simp at hmem
        simp only [renderRowGo]
        rw [if_neg hw, if_neg hvs, List.enumFrom_cons, List.filter_cons,
          if_pos (bne_iff_ne.mpr hw)]
        rw [ih (j + 1) (fun _ => hlast')]
        rcases hfil : (vs.enumFrom (j + 1)).filter (fun p => widths.getD p.1 0 != 0) with
          _ | ⟨c, rest2⟩
        · exact absurd hfil hrest_ne
        · rw [hfil]
          simp only [renderCellsSpec]
          by_cases hrt : j ∈ rightCols <;> simp [hrt, List.append_assoc]

/-- C8 (amended): `formatTable` renders each line as C8 describes —
every cell of a non-omitted column padded to the column's maximum
display width (left-padded for right-aligned columns, right-padded
otherwise), exactly `spacing` spaces between adjacent non-omitted
cells, no padding and no separator contributed by all-empty columns,
and no trailing output after the final rendered cell — provided no
non-empty row ends in a cell of an all-empty column.  (When a row's
final cell lies in an all-empty column, the preceding rendered column
still emits its right-padding and separator, leaving trailing spaces
on that line, contrary to the claim; see the counterexample.) -/
theorem formatTable_aligns (rows : List (List String)) (spacing : Nat)
    (rightCols : List Nat)
    (hlast : ∀ row ∈ rows, row ≠ [] →
      (colWidths rows).getD (row.length - 1) 0 ≠ 0) :
    formatTable rows spacing rightCols =
      rows.map (renderRowSpec (colWidths rows) spacing rightCols) := by
  by_cases hrows : rows = []
  · subst hrows
    simp [formatTable]
  · unfold formatTable
    rw [if_neg hrows]
    refine List.map_congr_left ?_
    intro row hrow
    have h := renderRowGo_eq_spec (colWidths rows) spacing rightCols row 0
      (fun hne => by simpa using hlast row hrow hne)
    simpa [renderRowSpec] using h

/-- Witness for C8 (amended) at the repository's own test case
`formatTable([["ab","foo"],["c","barber"]], spacing=2)`. -/
theorem formatTable_aligns_witness :
    formatTable [["ab", "foo"], ["c", "barber"]] 2 [] =
      [["ab", "foo"], ["c", "barber"]].map
        (renderRowSpec (colWidths [["ab", "foo"], ["c", "barber"]]) 2 []) ∧
    formatTable [["ab", "foo"], ["c", "barber"]] 2 [] =
      [['a', 'b', ' ', ' ', 'f', 'o', 'o'],
       ['c', ' ', ' ', ' ', 'b', 'a', 'r', 'b', 'e', 'r']] :=
  ⟨formatTable_aligns [["ab", "foo"], ["c", "barber"]] 2 [] (by decide), by decide⟩

/-- Counterexample to C8 as stated: when the all-empty column is the
final cell of each row, the column is not omitted without trace — the
preceding column still emits its right-padding and the separator, so
the lines end in trailing spaces ("a   " and "bb  ") instead of the
claimed ["a", "bb"]. -/
theorem formatTable_trailing_empty_column :
    formatTable [["a", ""], ["bb", ""]] 2 [] =
      [['a', ' ', ' ', ' '], ['b', 'b', ' ', ' ']] ∧
    formatTable [["a", ""], ["bb", ""]] 2 [] ≠ [['a'], ['b', 'b']] := by decide

theorem pickOne_mem (l : List Job) :
    ∀ pr ∈ pickOne l, pr.1 ∈ l ∧ ∀ x ∈ pr.2, x ∈ l := by
  induction l with
  | nil => simp [pickOne]
  | cons j rest ih =>
    intro pr hpr
    simp only [pickOne, List.mem_cons, List.mem_map] at hpr
    rcases hpr with rfl | ⟨q, hq, rfl⟩
    · exact ⟨by simp, fun x hx => by simp [hx]⟩
    · obtain ⟨h1, h2⟩ := ih q hq
      refine ⟨by simp [h1], ?_⟩
      intro x hx
      rcases List.mem_cons.mp hx with rfl | hx2
      · simp
      · simp [h2 x hx2]

theorem mem_mapInsert (k : String) (v : Job) (m : List (String × Job)) :
    ∀ p ∈ mapInsert k v m, p = (k, v) ∨ p ∈ m := by
  intro p hp
  unfold mapInsert at hp
  split at hp
  · obtain ⟨q, hq, hfq⟩ := List.mem_map.mp hp
    by_cases hqk : q.1 == k
    · left
      rw [← hfq]
      simp [hqk]
    · right
      rw [← hfq]
      simpa [hqk] using hq
  · rcases List.mem_append.mp hp with h | h
    · right; exact h
    · left; simpa using h

theorem key_not_mem_of_not_any (k : String) (m : List (String × Job))
    (h : ¬ (m.any (fun p => p.1 == k)) = true) : k ∉ m.map Prod.fst := by
  intro hk
  obtain ⟨p, hp, hps⟩ := List.mem_map.mp hk
  exact h (List.any_eq_true.mpr ⟨p, hp, by simp [hps]⟩)

theorem keys_mapInsert_nodup (k : String) (v : Job) (m : List (String × Job))
    (h : (m.map Prod.fst).Nodup) :
    ((mapInsert k v m).map Prod.fst).Nodup := by
  unfold mapInsert
  split
  case isTrue hany =>
    have hkeys : (m.map (fun p => if p.1 == k then (k, v) else p)).map Prod.fst =
        m.map Prod.fst := by
      rw [List.map_map]
      refine List.map_congr_left ?_
      intro p _
      by_cases hq : p.1 == k
      · simp only [Function.comp, hq, if_pos]
        exact (beq_iff_eq.mp hq).symm
      · simp [Function.comp, hq]
    rw [hkeys]
    exact h
  case isFalse hany =>
    rw [List.map_append]
    simp only [List.map_cons, List.map_nil]
    rw [List.nodup_append]
    exact ⟨h, List.nodup_singleton k, by
      intro x hx hx2
      have hxk : x = k := by simpa using hx2
      exact key_not_mem_of_not_any k m hany (hxk ▸ hx)⟩

theorem workJob_resultOK (cfg : OrchCfg) (J : Job) (h : pendingOK cfg J) :
    resultOK cfg (workJob cfg J) := by
  obtain ⟨hurl, hrest⟩ := h
  unfold workJob resultOK
  dsimp only
  refine ⟨hurl, by omega, ?_, fun _ => rfl, ?_⟩
  · simp [Option.isNone_iff_eq_none]
  · rcases hrest with h0 | ⟨h1, h2, h3⟩
    · left
      omega
    · right
      refine ⟨by omega, ?_⟩
      rwa [show J.attempts + 1 - 2 = J.attempts - 1 from by omega]

theorem ostep_cases (cfg : OrchCfg) (s s' : OState) (h : OStep cfg s s') :
    (∃ j rest, s.jobs = j :: rest ∧ s.inflight.length < cfg.workers ∧
      s' = { s with jobs := rest, inflight := s.inflight ++ [j] }) ∨
    (∃ pr ∈ pickOne s.inflight,
      s' = { s with inflight := pr.2,
                    results := s.results ++ [workJob cfg pr.1] }) ∨
    (∃ r rest, s.results = r :: rest ∧ s.done.length < cfg.urls.length ∧
      ((r.err = true ∧ r.attempts ≤ cfg.retries ∧
         s' = { s with results := rest, jobs := s.jobs ++ [r] }) ∨
       (¬ (r.err = true ∧ r.attempts ≤ cfg.retries) ∧
         s' = { s with results := rest, done := mapInsert r.url r s.done }))) := by
  unfold OStep nexts at h
  rcases List.mem_append.mp h with h12 | h3
  rcases List.mem_append.mp h12 with h1 | h2
  · left
    unfold takeNexts at h1
    split at h1
    case isTrue hlt =>
      split at h1
      case h_1 => simp at h1
      case h_2 j rest heq =>
        have : s' = { s with jobs := rest, inflight := s.inflight ++ [j] } := by
          simpa using h1
        exact ⟨j, rest, heq, hlt, this⟩
    case isFalse => simp at h1
  · right; left
    unfold finishNexts at h2
    obtain ⟨pr, hpr, heq⟩ := List.mem_map.mp h2
    exact ⟨pr, hpr, heq.symm⟩
  · right; right
    unfold coordNexts at h3
    split at h3
    case isTrue => simp at h3
    case isFalse hlen =>
      split at h3
      case h_1 => simp at h3
      case h_2 r rest heq =>
        split at h3
        case isTrue hcond =>
          have : s' = { s with results := rest, jobs := s.jobs ++ [r] } := by
            simpa using h3
          exact ⟨r, rest, heq, by omega, Or.inl ⟨hcond.1, hcond.2, this⟩⟩
        case isFalse hcond =>
          have : s' = { s with results := rest, done := mapInsert r.url r s.done } := by
            simpa using h3
          exact ⟨r, rest, heq, by omega, Or.inr ⟨hcond, this⟩⟩

theorem oinv_init (cfg : OrchCfg) : OInv cfg (initState cfg) := by
  constructor
  · intro J hJ
    simp only [initState, List.mem_map] at hJ
    obtain ⟨u, hu, rfl⟩ := hJ
    exact ⟨by simpa using hu, Or.inl rfl⟩
  · intro J hJ
    simp [initState] at hJ
  · intro J hJ
    simp [initState] at hJ
  · intro p hp
    simp [initState] at hp
  · simp [initState]

theorem oinv_step (cfg : OrchCfg) (s s' : OState) (hinv : OInv cfg s)
    (h : OStep cfg s s') : OInv cfg s' := by
  rcases ostep_cases cfg s s' h with
    ⟨j, rest, hjobs, hlt, rfl⟩ | ⟨pr, hpr, rfl⟩ | ⟨r, rest, hres, hlen, hcase⟩
  · refine ⟨?_, ?_, hinv.results_ok, hinv.done_ok, hinv.keys_nodup⟩
    · intro J hJ
      exact hinv.jobs_ok J (by rw [hjobs]; exact List.mem_cons_of_mem _ hJ)
    · intro J hJ
      rcases List.mem_append.mp hJ with h1 | h1
      · exact hinv.inflight_ok J h1
      · have hJ' : J = j := by simpa using h1
        subst hJ'
        exact hinv.jobs_ok J (by rw [hjobs]; simp)
  · obtain ⟨hmem, hsub⟩ := pickOne_mem s.inflight pr hpr
    refine ⟨hinv.jobs_ok, ?_, ?_, hinv.done_ok, hinv.keys_nodup⟩
    · intro J hJ
      exact hinv.inflight_ok J (hsub J hJ)
    · intro J hJ
      rcases List.mem_append.mp hJ with h1 | h1
      · exact hinv.results_ok J h1
      · have hJ' : J = workJob cfg pr.1 := by simpa using h1
        subst hJ'
        exact workJob_resultOK cfg pr.1 (hinv.inflight_ok pr.1 hmem)
  · rcases hcase with ⟨herr, hatt, rfl⟩ | ⟨hnot, rfl⟩
    · refine ⟨?_, hinv.inflight_ok, ?_, hinv.done_ok, hinv.keys_nodup⟩
      · intro J hJ
        rcases List.mem_append.mp hJ with h1 | h1
        · exact hinv.jobs_ok J h1
        · have hJ' : J = r := by simpa using h1
          subst hJ'
          have hr := hinv.results_ok J (by rw [hres]; simp)
          exact ⟨hr.1, Or.inr ⟨hr.2.1, hatt, (hr.2.2.1).mp herr⟩⟩
      · intro J hJ
        exact hinv.results_ok J (by rw [hres]; exact List.mem_cons_of_mem _ hJ)
    · have hr := hinv.results_ok r (by rw [hres]; simp)
      refine ⟨hinv.jobs_ok, hinv.inflight_ok, ?_, ?_, ?_⟩
      · intro J hJ
        exact hinv.results_ok J (by rw [hres]; exact List.mem_cons_of_mem _ hJ)
      · intro p hp
        rcases mem_mapInsert r.url r s.done p hp with rfl | hold
        · refine ⟨rfl, hr, ?_⟩
          intro herr
          by_contra hlt'
          exact hnot ⟨herr, Nat.not_lt.mp hlt'⟩
        · exact hinv.done_ok p hold
      · exact keys_mapInsert_nodup r.url r s.done hinv.keys_nodup

theorem reachable_oinv (cfg : OrchCfg) (s : OState) (h : Reachable cfg s) :
    OInv cfg s := by
  induction h with
  | refl => exact oinv_init cfg
  | tail hab hbc ih => exact oinv_step cfg _ _ ih hbc

theorem lookupJob_eq_some (m : List (String × Job)) (u : String) (j : Job)
    (h : lookupJob m u = some j) : (u, j) ∈ m := by
  unfold lookupJob at h
  obtain ⟨p, hfind, hpj⟩ : ∃ p, m.find? (fun p => p.1 == u) = some p ∧ p.2 = j := by
    cases hf : m.find? (fun p => p.1 == u) with
    | none => rw [hf] at h; simp at h
    | some p =>
      rw [hf] at h
      simp at h
      exact ⟨p, rfl, h⟩
  have hp1 : p.1 = u := by simpa using List.find?_some hfind
  have hpm := List.mem_of_find?_eq_some hfind
  have hpu : p = (u, j) := by
    obtain ⟨p1, p2⟩ := p
    simp only at hp1 hpj
    simp [hp1, hpj]
  rwa [hpu] at hpm

theorem lookupJob_of_mem_keys (m : List (String × Job)) (u : String)
    (h : u ∈ m.map Prod.fst) : ∃ j, lookupJob m u = some j := by
  induction m with
  | nil => simp at h
  | cons p rest ih =>
    by_cases hp : (p.1 == u) = true
    · refine ⟨p.2, ?_⟩
      unfold lookupJob
      rw [List.find?_cons, hp]
      rfl
    · have hu : u ∈ rest.map Prod.fst := by
        simp only [List.map_cons, List.mem_cons] at h
        rcases h with h1 | h1
        · exact absurd (by simp [h1] : (p.1 == u) = true) hp
        · exact h1
      obtain ⟨j, hj⟩ := ih hu
      refine ⟨j, ?_⟩
      have hpf : (p.1 == u) = false := Bool.eq_false_iff.mpr (fun hc => hp hc)
      unfold lookupJob at hj ⊢
      rw [List.find?_cons, hpf]
      exact hj

theorem done_keys_sub (cfg : OrchCfg) (s : OState) (hinv : OInv cfg s) :
    ∀ x ∈ s.done.map Prod.fst, x ∈ cfg.urls := by
  intro x hx
  obtain ⟨p, hp, rfl⟩ := List.mem_map.mp hx
  have hd := hinv.done_ok p hp
  rw [← hd.1]
  exact hd.2.1.1

theorem done_len_le (cfg : OrchCfg) (s : OState) (hinv : OInv cfg s) :
    s.done.length ≤ cfg.urls.toFinset.card := by
  have hsub : (s.done.map Prod.fst).toFinset ⊆ cfg.urls.toFinset := by
    intro x hx
    exact List.mem_toFinset.mpr (done_keys_sub cfg s hinv x (List.mem_toFinset.mp hx))
  have hc1 : (s.done.map Prod.fst).toFinset.card = (s.done.map Prod.fst).length :=
    List.toFinset_card_of_nodup hinv.keys_nodup
  have hc2 := Finset.card_le_card hsub
  have hlen : (s.done.map Prod.fst).length = s.done.length := List.length_map ..
  omega

theorem dedup_length_lt (l : List String) (h : ¬ l.Nodup) :
    l.dedup.length < l.length := by
  have hsl := l.dedup_sublist
  have hle := hsl.length_le
  rcases eq_or_lt_of_le hle with heq | hlt
  · exfalso
    have heql := hsl.eq_of_length heq
    have := l.nodup_dedup
    rw [heql] at this
    exact h this
  · exact hlt

theorem done_covers (cfg : OrchCfg) (s : OState) (hinv : OInv cfg s)
    (ht : terminalState cfg s) :
    ∀ u ∈ cfg.urls, ∃ j, lookupJob s.done u = some j := by
  intro u hu
  have hsub : (s.done.map Prod.fst).toFinset ⊆ cfg.urls.toFinset := by
    intro x hx
    exact List.mem_toFinset.mpr (done_keys_sub cfg s hinv x (List.mem_toFinset.mp hx))
  have hc1 : (s.done.map Prod.fst).toFinset.card = (s.done.map Prod.fst).length :=
    List.toFinset_card_of_nodup hinv.keys_nodup
  have hc2 : cfg.urls.toFinset.card ≤ cfg.urls.length := by
    rw [List.card_toFinset]
    exact (List.dedup_sublist cfg.urls).length_le
  have hlen : (s.done.map Prod.fst).length = s.done.length := List.length_map ..
  have hterm : cfg.urls.length ≤ s.done.length := ht
  have hkeq : (s.done.map Prod.fst).toFinset = cfg.urls.toFinset := by
    apply Finset.eq_of_subset_of_card_le hsub
    omega
  have humem : u ∈ (s.done.map Prod.fst).toFinset := by
    rw [hkeq]
    exact List.mem_toFinset.mpr hu
  exact lookupJob_of_mem_keys _ _ (List.mem_toFinset.mp humem)

/-- C1: in every reachable state in which the coordinating loop's exit
condition holds (one terminal outcome per input URL), the assembled
output has exactly one result slot per input URL and preserves input
order: the i-th slot is determined by `urls[i]`'s entry in the done
map — the empty-category placeholder `report{URL: urls[i]}` if that
URL's fetch ended in error, and otherwise the report produced by the
injected fetch for `urls[i]` (on the recorded final attempt).  This
holds for every interleaving of worker completions and any number of
retries, since `Reachable` quantifies over all schedules. -/
theorem orchestrator_order (cfg : OrchCfg) (s : OState)
    (hr : Reachable cfg s) (ht : terminalState cfg s) :
    (assemble cfg s).length = cfg.urls.length ∧
    ∀ i, (hi : i < cfg.urls.length) →
      ∃ j : Job, lookupJob s.done cfg.urls[i] = some j ∧
        j.url = cfg.urls[i] ∧
        (assemble cfg s)[i]? =
          some (if j.err then some { URL := cfg.urls[i], Categories := [] }
                else j.rep) ∧
        (j.err = false →
          j.rep = cfg.fetch cfg.urls[i] (j.attempts - 1) ∧ j.rep ≠ none) := by
  have hinv := reachable_oinv cfg s hr
  constructor
  · simp [assemble]
  · intro i hi
    have hu : cfg.urls[i] ∈ cfg.urls := List.getElem_mem hi
    obtain ⟨j, hj⟩ := done_covers cfg s hinv ht cfg.urls[i] hu
    have hmem := lookupJob_eq_some _ _ _ hj
    have hd := hinv.done_ok _ hmem
    refine ⟨j, hj, hd.1, ?_, ?_⟩
    · unfold assemble
      rw [List.getElem?_map, List.getElem?_eq_getElem hi]
      simp [hj]
    · intro herr
      have hres := hd.2.1
      refine ⟨?_, ?_⟩
      · have hrep := hres.2.2.2.1 herr
        rwa [hd.1] at hrep
      · intro hnone
        have hfet : cfg.fetch j.url (j.attempts - 1) = none := by
          rw [← hres.2.2.2.1 herr]
          exact hnone
        have htrue := hres.2.2.1.mpr hfet
        rw [herr] at htrue
        exact Bool.false_ne_true htrue

theorem reach_oneS3 : Reachable cfgOne oneS3 :=
  Relation.ReflTransGen.head
    (show oneS1 ∈ nexts cfgOne (initState cfgOne) by decide)
    (Relation.ReflTransGen.head (show oneS2 ∈ nexts cfgOne oneS1 by decide)
      (Relation.ReflTransGen.head (show oneS3 ∈ nexts cfgOne oneS2 by decide)
        Relation.ReflTransGen.refl))

/-- Witness for C1: a complete one-URL run. -/
theorem orchestrator_order_witness :
    (assemble cfgOne oneS3).length = cfgOne.urls.length ∧
    assemble cfgOne oneS3 = [some repU] :=
  ⟨(orchestrator_order cfgOne oneS3 reach_oneS3
      (show cfgOne.urls.length ≤ oneS3.done.length by decide)).1,
    by decide⟩

/-- C2: for a URL whose injected fetch fails on exactly its first `k`
attempts and succeeds from attempt `k+1` on, any terminal outcome the
orchestrator records for that URL (in any reachable state, under any
interleaving) is a success if `k ≤ retryBudget` and a failure if
`k > retryBudget`, and the recorded number of fetch attempts for that
URL is exactly `min(k+1, retryBudget+1)`; in particular
`retryBudget = 0` records exactly one attempt. -/
theorem orchestrator_retry (cfg : OrchCfg) (u : String) (k : Nat)
    (hfail : ∀ a, a < k → cfg.fetch u a = none)
    (hsucc : ∀ a, k ≤ a → cfg.fetch u a ≠ none)
    (s : OState) (hr : Reachable cfg s) (j : Job)
    (hj : lookupJob s.done u = some j) :
    (k ≤ cfg.retries → j.err = false ∧ j.attempts = k + 1) ∧
    (cfg.retries < k → j.err = true ∧ j.attempts = cfg.retries + 1) ∧
    j.attempts = min (k + 1) (cfg.retries + 1) := by
  have hinv := reachable_oinv cfg s hr
  have hmem := lookupJob_eq_some _ _ _ hj
  have hd := hinv.done_ok _ hmem
  have hurl : j.url = u := hd.1
  have hres : resultOK cfg j := hd.2.1
  have hterm : j.err = true → cfg.retries < j.attempts := hd.2.2
  obtain ⟨-, hat1, hiff, hrep, hlast⟩ := hres
  rw [hurl] at hiff hrep hlast
  have hprof : ∀ a, cfg.fetch u a = none ↔ a < k := by
    intro a
    constructor
    · intro hn
      by_contra hak
      exact hsucc a (by omega) hn
    · exact hfail a
  cases herr : j.err with
  | true =>
    have hfn : cfg.fetch u (j.attempts - 1) = none := hiff.mp herr
    have hak : j.attempts - 1 < k := (hprof _).mp hfn
    have hgt : cfg.retries < j.attempts := hterm herr
    have hattempts : j.attempts = cfg.retries + 1 := by
      rcases hlast with h1 | ⟨h2, _⟩
      · omega
      · omega
    refine ⟨?_, ?_, ?_⟩
    · intro hk
      omega
    · intro _
      exact ⟨rfl, hattempts⟩
    · omega
  | false =>
    have hfs : cfg.fetch u (j.attempts - 1) ≠ none := by
      intro hn
      have h' := hiff.mpr hn
      rw [herr] at h'
      exact Bool.false_ne_true h'
    have hk1 : k ≤ j.attempts - 1 := by
      by_contra hlt
      exact hfs ((hprof _).mpr (by omega))
    have hattempts : j.attempts = k + 1 ∧ k ≤ cfg.retries := by
      rcases hlast with h1 | ⟨h2, h3⟩
      · constructor <;> omega
      · have := (hprof _).mp h3
        constructor <;> omega
    refine ⟨?_, ?_, ?_⟩
    · intro _
      exact ⟨rfl, hattempts.1⟩
    · intro hk
      omega
    · omega

theorem reach_retS6 : Reachable cfgRetry retS6 :=
  Relation.ReflTransGen.head
    (show retS1 ∈ nexts cfgRetry (initState cfgRetry) by decide)
    (Relation.ReflTransGen.head (show retS2 ∈ nexts cfgRetry retS1 by decide)
      (Relation.ReflTransGen.head (show retS3 ∈ nexts cfgRetry retS2 by decide)
        (Relation.ReflTransGen.head (show retS4 ∈ nexts cfgRetry retS3 by decide)
          (Relation.ReflTransGen.head (show retS5 ∈ nexts cfgRetry retS4 by decide)
            (Relation.ReflTransGen.head (show retS6 ∈ nexts cfgRetry retS5 by decide)
              Relation.ReflTransGen.refl)))))

/-- Witness for C2: a run whose fetch fails once then succeeds, with
retry budget 2 — the terminal job is a success recorded after exactly
min(1+1, 2+1) = 2 attempts. -/
theorem orchestrator_retry_witness :
    lookupJob retS6.done "u" = some jRet ∧
    jRet.err = false ∧ jRet.attempts = 1 + 1 ∧
    jRet.attempts = min (1 + 1) (2 + 1) := by
  have h := orchestrator_retry cfgRetry "u" 1
    (by
      intro a ha
      show (if a < 1 then none else some repU) = none
      rw [if_pos ha])
    (by
      intro a ha
      show (if a < 1 then none else some repU) ≠ none
      rw [if_neg (by omega)]
      simp)
    retS6 reach_retS6 jRet (by decide)
  exact ⟨by decide, (h.1 (by decide)).1, (h.1 (by decide)).2, h.2.2⟩

/-- C10: if some URL appears more than once in the input list then,
with at least one worker and the (always-total) injected fetch, the
done map — keyed by URL, so holding at most one entry per distinct
URL — can never reach `len(urls)` entries, and hence no reachable
state satisfies the coordinating loop's exit condition: the loop never
terminates. -/
theorem orchestrator_dup_never_exits (cfg : OrchCfg)
    (hdup : ¬ cfg.urls.Nodup) (_hw : 1 ≤ cfg.workers)
    (s : OState) (hr : Reachable cfg s) :
    s.done.length < cfg.urls.length ∧ ¬ terminalState cfg s := by
  have hinv := reachable_oinv cfg s hr
  have h1 := done_len_le cfg s hinv
  have h2 : cfg.urls.toFinset.card < cfg.urls.length := by
    rw [List.card_toFinset]
    exact dedup_length_lt _ hdup
  have h3 : s.done.length < cfg.urls.length := by omega
  exact ⟨h3, fun ht => by
    have : cfg.urls.length ≤ s.done.length := ht
    omega⟩

/-- Witness for C10 at the duplicated list ["u", "u"], evaluated at the
initial state. -/
theorem orchestrator_dup_never_exits_witness :
    (initState cfgDup).done.length < cfgDup.urls.length ∧
    ¬ terminalState cfgDup (initState cfgDup) :=
  orchestrator_dup_never_exits cfgDup (by decide) (by decide)
    (initState cfgDup) Relation.ReflTransGen.refl

theorem nexts_zero_workers (cfg : OrchCfg) (hw : cfg.workers = 0) :
    nexts cfg (initState cfg) = [] := by
  unfold nexts takeNexts finishNexts coordNexts initState
  simp only [hw, pickOne]
  simp

/-- C3 (amended): with zero workers requested and a non-empty URL list
the orchestrator performs no fetch attempt and produces no result for
any URL — but it does not reject the configuration as an error: the
code has no such check, no transition is enabled from the initial
state (workers never take a job, so no result ever arrives), and the
coordinating loop's exit condition never becomes true, so the program
blocks forever on `<-results` instead of returning. -/
theorem orchestrator_zero_workers (cfg : OrchCfg) (hw : cfg.workers = 0)
    (hne : cfg.urls ≠ []) (s : OState) (hr : Reachable cfg s) :
    s = initState cfg ∧ s.inflight = [] ∧ s.results = [] ∧ s.done = [] ∧
    ¬ terminalState cfg s := by
  have hsi : s = initState cfg := by
    induction hr with
    | refl => rfl
    | tail hab hbc ih =>
      rw [ih] at hbc
      have hnil := nexts_zero_workers cfg hw
      unfold OStep at hbc
      rw [hnil] at hbc
      simp at hbc
  subst hsi
  refine ⟨rfl, rfl, rfl, rfl, ?_⟩
  intro hterm
  have hlen : cfg.urls.length ≤ (initState cfg).done.length := hterm
  have hz : (initState cfg).done.length = 0 := rfl
  have : cfg.urls = [] := List.length_eq_zero.mp (by omega)
  exact hne this

/-- Witness for C3 (amended) at the concrete zero-worker
configuration. -/
theorem orchestrator_zero_workers_witness :
    initState cfgZeroW = initState cfgZeroW ∧
    (initState cfgZeroW).inflight = [] ∧ (initState cfgZeroW).results = [] ∧
    (initState cfgZeroW).done = [] ∧
    ¬ terminalState cfgZeroW (initState cfgZeroW) :=
  orchestrator_zero_workers cfgZeroW rfl (by decide)
    (initState cfgZeroW) Relation.ReflTransGen.refl

/-- Counterexample to C3 as stated: the claim says a zero-worker
configuration with non-empty input is rejected as an error before any
work starts, but the orchestrator in main.go has no such check and no
error path: at this configuration no scheduler transition is enabled
from the initial state (the `nexts` list is empty — no job is ever
taken, no fetch is attempted, no result or error is ever produced) and
the loop's exit condition does not hold, so the run neither rejects
nor terminates — it blocks forever. -/
theorem orchestrator_zero_workers_no_reject :
    nexts cfgZeroW (initState cfgZeroW) = [] ∧
    ¬ terminalState cfgZeroW (initState cfgZeroW) ∧
    (initState cfgZeroW).done = [] ∧ (initState cfgZeroW).results = [] :=
  ⟨by decide,
    fun ht => by
      have : cfgZeroW.urls.length ≤ (initState cfgZeroW).done.length := ht
      simp [cfgZeroW, initState] at this,
    rfl, rfl⟩

end CheckPageSpeed
